import Mathlib

/-!
Verification of the CS:APP cache simulator (`csim.c`): a set-associative
cache with an LRU replacement policy, driven by a list of trace records.

The embedding translates the C source:
* `block` is the C struct `block` (`valid_bit`, `tag`, `lri`).  The C field
  `tag` is an `int`, but every comparison against it promotes it to
  `unsigned int` (32 bits), and every value stored into it comes from the
  `unsigned int` array `tag_index`; we therefore model the stored bit
  pattern as a natural number below `2^32`.  The initial value `-1` is the
  pattern `2^32 - 1`.
* the recency stamp `lri` is a C `int` initialised to `-1`, so it is an
  `Int` here; the global `lri_count` starts at `0` and only grows.
* a set is a `List block` in declaration order; the cache is the list of
  its sets (the C `set.index` field only records the position and is
  dropped).  Machine-level reads past the end of an array (possible when
  `E = 0`, or a set index out of range) are undefined behaviour in C and
  are modelled by `Option.none`.
* `parse_address` translates the C function of the same name: on an
  `unsigned long` (64-bit) address, `address >> b` is division by `2^b`,
  the mask `~(~0ul << s)` equals `2^s - 1` so `&` with it is `% 2^s`, and
  storing the results in the `unsigned int` variables `tag`/`set_index`
  truncates them `% 2^32`.  When `s + b ≥ 64` the C shift
  `address >> (s + b)` is undefined behaviour (shift count not smaller
  than the width), modelled as `none`.
* `hit_scan`, `empty_scan`, `min_scan` are the three loops of the C
  function `parse_trace`; `access` is one pass of its body (one probe of
  the cache) together with the counter updates; `process_line` performs
  the `goto start` replay for `MODIFY` records; `parse_trace` folds over
  the whole trace.  Counters (`hit`, `miss`, `evictions`) are `Nat`.
-/

namespace Csim

/-- One cache line, the C struct `block`: a valid bit, the stored tag
pattern (low 32 bits of the C `int` as an unsigned pattern) and the
recency index `lri`. -/
structure block where
  valid_bit : Bool
  tag : Nat
  lri : Int
deriving DecidableEq, Repr

/-- The initial value of a line set by `cache_init`: `valid_bit = false`,
`tag = -1` (bit pattern `2^32 - 1`), `lri = -1`. -/
def init_block : block := ⟨false, 2 ^ 32 - 1, -1⟩

/-- The C enum `{LOAD, STORE, MODIFY}` of `trace_line.type`. -/
inductive AccessType where
  | LOAD
  | STORE
  | MODIFY
deriving DecidableEq, Repr

/-- One record of the trace, the C struct `trace_line`.  The C `end` flag
only terminates the array; the list structure plays that role here. -/
structure trace_line where
  type : AccessType
  address : Nat
deriving DecidableEq, Repr

/-- The outcome of one probe of the cache (spec §4.3); the C code does not
reify it but each branch of `parse_trace` realises exactly one of them. -/
inductive Outcome where
  | Hit
  | MissFilled
  | MissEvicted
deriving DecidableEq, Repr

/-- The mutable simulator state: the cache (list of sets, each a list of
lines in declaration order) and the C globals `lri_count`, `hit`, `miss`,
`evictions`. -/
structure SimState where
  cache : List (List block)
  lri_count : Int
  hit : Nat
  miss : Nat
  evictions : Nat
deriving DecidableEq, Repr

/-- Replace the element at position `k` by its image under `f`
(out-of-range `k` leaves the list unchanged); used to write back the one
line / one set that a C loop body mutates in place. -/
def modifyIdx {α : Type} : List α → Nat → (α → α) → List α
  | [], _, _ => []
  | x :: rest, 0, f => f x :: rest
  | x :: rest, k + 1, f => x :: modifyIdx rest k f

/-- The C function `parse_address`: `set_index = (address >> b) & ~(~0ul << s)`,
`tag = address >> (s + b)`, both stored into `unsigned int` (hence `% 2^32`).
Returns `(tag, set_index)`, the contents of `tag_index[0]` and `tag_index[1]`.
For `s + b ≥ 64` the shift `address >> (s + b)` is undefined behaviour in C,
modelled as `none`. -/
def parse_address (address : Nat) (s b : Nat) : Option (Nat × Nat) :=
  if s + b < 64 then
    some ((address / 2 ^ (s + b)) % 2 ^ 32, ((address / 2 ^ b) % 2 ^ s) % 2 ^ 32)
  else
    none

/-- First loop of `parse_trace`: scan the set in declaration order for a
line with `tag == tag_index[0] && valid_bit`; on a hit restamp its `lri`
with the current `lri_count` and return the updated set. -/
def hit_scan (l : List block) (t : Nat) (c : Int) : Option (List block) :=
  match l with
  | [] => none
  | bl :: rest =>
    if bl.tag = t ∧ bl.valid_bit = true then
      some ({ bl with lri := c } :: rest)
    else
      (hit_scan rest t c).map (bl :: ·)

/-- Second loop of `parse_trace`: scan for the first line with
`valid_bit == false` and install `tag`, `valid_bit`, `lri` there. -/
def empty_scan (l : List block) (t : Nat) (c : Int) : Option (List block) :=
  match l with
  | [] => none
  | bl :: rest =>
    if bl.valid_bit = true then
      (empty_scan rest t c).map (bl :: ·)
    else
      some ({ bl with tag := t, valid_bit := true, lri := c } :: rest)

/-- Third loop of `parse_trace` (eviction): starting from the first line
as the running minimum, replace it whenever a strictly smaller `lri` is
seen.  Arguments: remaining lines, index of the next line, `lri` of the
current minimum, index of the current minimum. -/
def min_scan : List block → Nat → Int → Nat → Nat
  | [], _, _, bestIdx => bestIdx
  | bl :: rest, idx, bestLri, bestIdx =>
    if bl.lri < bestLri then
      min_scan rest (idx + 1) bl.lri idx
    else
      min_scan rest (idx + 1) bestLri bestIdx

/-- Index of the line `parse_trace` evicts: the `min_lri` scan starting at
the first line (the `lines > 1` guard in the C code only skips a loop that
would not run anyway). -/
def evict_idx : List block → Nat
  | [] => 0
  | bl :: rest => min_scan rest 1 bl.lri 0

/-- One probe of one set, the body of `parse_trace` between `start:` and
the counter updates excluded: hit scan, then empty-line scan, then
eviction.  `none` on an empty set (`E = 0`), where the C code would read
past the end of the zero-length line array. -/
def access_set (l : List block) (t : Nat) (c : Int) : Option (List block × Outcome) :=
  match hit_scan l t c with
  | some l2 => some (l2, Outcome.Hit)
  | none =>
    match empty_scan l t c with
    | some l2 => some (l2, Outcome.MissFilled)
    | none =>
      match l with
      | [] => none
      | _ :: _ =>
        some (modifyIdx l (evict_idx l) (fun bl => { bl with tag := t, lri := c }),
          Outcome.MissEvicted)

/-- One pass of the body of `parse_trace` at state level: locate the set
`tag_index[1]`, probe it, bump `lri_count`, and update the counters
(`hit++` on a hit, else `miss++`, plus `evictions++` when no empty line
was found).  `none` when the set index is out of range (the C code indexes
the array unchecked). -/
def access (st : SimState) (idx : Nat) (t : Nat) : Option (SimState × Outcome) :=
  match st.cache.get? idx with
  | none => none
  | some l =>
    match access_set l t st.lri_count with
    | none => none
    | some (l2, o) =>
      some ({ cache := modifyIdx st.cache idx (fun _ => l2),
              lri_count := st.lri_count + 1,
              hit := if o = Outcome.Hit then st.hit + 1 else st.hit,
              miss := if o = Outcome.Hit then st.miss else st.miss + 1,
              evictions := if o = Outcome.MissEvicted then st.evictions + 1 else st.evictions },
            o)

/-- `parse_address` followed by one probe, as `parse_trace` does per pass. -/
def access_addr (s b : Nat) (st : SimState) (a : Nat) : Option (SimState × Outcome) :=
  match parse_address a s b with
  | none => none
  | some (t, idx) => access st idx t

/-- Processing of one trace record by `parse_trace`: one probe for `LOAD`
and `STORE`; for `MODIFY` the `is_type_m` flag makes the body `goto start`
and run a second probe of the same address before advancing. -/
def process_line (s b : Nat) (st : SimState) (tl : trace_line) : Option SimState :=
  match tl.type with
  | AccessType.MODIFY =>
    match access_addr s b st tl.address with
    | none => none
    | some (st1, _) => (access_addr s b st1 tl.address).map Prod.fst
  | _ => (access_addr s b st tl.address).map Prod.fst

/-- The C function `parse_trace`: process the trace records in order. -/
def parse_trace (s b : Nat) (st : SimState) : List trace_line → Option SimState
  | [] => some st
  | tl :: rest =>
    match process_line s b st tl with
    | none => none
    | some st2 => parse_trace s b st2 rest

/-- The state after `cache_init` and the initialisation in `main`:
`2^s` sets of `E` lines, all `⟨false, -1, -1⟩`; `lri_count`, `hit`,
`miss`, `evictions` all zero. -/
def init_state (s E : Nat) : SimState :=
  ⟨List.replicate (2 ^ s) (List.replicate E init_block), 0, 0, 0, 0⟩

/-- The C function `cache_init` together with its unconditional call site
in `main`: no validation of `s`, `E`, `b` is performed anywhere — `main`
only checks `argc == 1`.  `sets = 1 << s` and `block_bits = 1 << b` are
`int` shifts, undefined for a negative or `≥ 31` count (modelled `none`);
a negative `E` makes `malloc(lines * sizeof(block))` wrap to a huge size
and fail (modelled `none`).  Every other configuration — including
`E = 0` — allocates the cache and returns it. -/
def cache_init (s E b : Int) : Option SimState :=
  if s < 0 ∨ 31 ≤ s ∨ b < 0 ∨ 31 ≤ b ∨ E < 0 then
    none
  else
    some (init_state s.toNat E.toNat)

/-- Number of `LOAD`/`STORE` records of a trace. -/
def num_loadstore : List trace_line → Nat
  | [] => 0
  | tl :: rest =>
    (if tl.type = AccessType.MODIFY then 0 else 1) + num_loadstore rest

/-- Number of `MODIFY` records of a trace. -/
def num_modify : List trace_line → Nat
  | [] => 0
  | tl :: rest =>
    (if tl.type = AccessType.MODIFY then 1 else 0) + num_modify rest

/-- Index of the first line satisfying `p` (the length of the list when
none does); the "first line with ..." selections of spec §4.3. -/
def find_idx (p : block → Bool) : List block → Nat
  | [] => 0
  | bl :: rest => if p bl then 0 else find_idx p rest + 1

/-- Minimum of the recency stamps of the lines of `l` and the seed `a`;
the "minimum recency value among all lines" of spec §4.3 step 3. -/
def lri_min : List block → Int → Int
  | [], a => a
  | bl :: rest, a => lri_min rest (min a bl.lri)

/-- Spec §4.3 step 1 predicate: `valid == true && tag == requestedTag`. -/
def pred_hit (t : Nat) (bl : block) : Bool :=
  bl.valid_bit && decide (bl.tag = t)

/-- Spec §4.3 step 2 predicate: a free line, `valid == false`. -/
def pred_invalid (bl : block) : Bool :=
  !bl.valid_bit

/-- Spec §4.3 step 3 predicate: a line holding the minimum recency. -/
def pred_lri (m : Int) (bl : block) : Bool :=
  decide (bl.lri = m)

/-- Modelled from the spec, §4.3 "Replacement Engine — core algorithm",
for the refinement claim: (1) scan for a line with
`valid == true && tag == requestedTag` and on a hit restamp its recency;
(2) otherwise install into the first line with `valid == false`;
(3) otherwise overwrite the line with the strictly minimum recency among
all lines of the set (`valid` stays true). -/
def access_set_spec (l : List block) (t : Nat) (c : Int) : Option (List block × Outcome) :=
  if l.any (pred_hit t) then
    some (modifyIdx l (find_idx (pred_hit t) l) (fun bl => { bl with lri := c }), Outcome.Hit)
  else if l.any pred_invalid then
    some (modifyIdx l (find_idx pred_invalid l)
      (fun bl => { bl with tag := t, valid_bit := true, lri := c }), Outcome.MissFilled)
  else
    match l with
    | [] => none
    | bl0 :: rest =>
      some (modifyIdx l (find_idx (pred_lri (lri_min rest bl0.lri)) l)
        (fun bl => { bl with tag := t, lri := c }), Outcome.MissEvicted)

/-- Modelled from the spec, §4.3, state level: a `Hit` increments `hits`,
a miss increments `misses`, an eviction additionally increments
`evictions`; every probe stamps the touched line from the global recency
counter, which then advances. -/
def access_spec (st : SimState) (idx : Nat) (t : Nat) : Option (SimState × Outcome) :=
  match st.cache.get? idx with
  | none => none
  | some l =>
    match access_set_spec l t st.lri_count with
    | none => none
    | some (l2, o) =>
      some ({ cache := modifyIdx st.cache idx (fun _ => l2),
              lri_count := st.lri_count + 1,
              hit := if o = Outcome.Hit then st.hit + 1 else st.hit,
              miss := if o = Outcome.Hit then st.miss else st.miss + 1,
              evictions := if o = Outcome.MissEvicted then st.evictions + 1 else st.evictions },
            o)

/-- The line of `st` at set `i`, way `j` (`none` when out of range). -/
def getBlock (st : SimState) (i j : Nat) : Option block :=
  (st.cache.get? i).bind (fun l => l.get? j)

/-- Every stamp in the cache is strictly below the global counter. -/
def LriBound (st : SimState) : Prop :=
  ∀ i j bl, getBlock st i j = some bl → bl.lri < st.lri_count

/-- No two valid lines of the whole cache hold equal recency stamps. -/
def RecUnique (st : SimState) : Prop :=
  ∀ i₁ j₁ i₂ j₂ b₁ b₂, getBlock st i₁ j₁ = some b₁ → getBlock st i₂ j₂ = some b₂ →
    b₁.valid_bit = true → b₂.valid_bit = true → (i₁ ≠ i₂ ∨ j₁ ≠ j₂) → b₁.lri ≠ b₂.lri

/-- No two valid lines within one set hold the same tag. -/
def TagUnique (st : SimState) : Prop :=
  ∀ i j₁ j₂ b₁ b₂, getBlock st i j₁ = some b₁ → getBlock st i j₂ = some b₂ →
    b₁.valid_bit = true → b₂.valid_bit = true → j₁ ≠ j₂ → b₁.tag ≠ b₂.tag

/-- The simulation invariant: stamp bound, stamp uniqueness, tag
uniqueness. -/
def SimInv (st : SimState) : Prop :=
  LriBound st ∧ RecUnique st ∧ TagUnique st

theorem modifyIdx_get? {α : Type} (l : List α) (k : Nat) (f : α → α) (j : Nat) :
    (modifyIdx l k f).get? j = if j = k then (l.get? j).map f else l.get? j := by
  induction l generalizing k j with
  | nil => simp [modifyIdx]
  | cons x rest ih =>
    cases k with
    | zero =>
      cases j with
      | zero => simp [modifyIdx]
      | succ j => simp [modifyIdx]
    | succ k =>
      cases j with
      | zero => simp [modifyIdx]
      | succ j => simpa [modifyIdx] using ih k j

theorem modifyIdx_getElem? {α : Type} (l : List α) (k : Nat) (f : α → α) (j : Nat) :
    (modifyIdx l k f)[j]? = if j = k then l[j]?.map f else l[j]? := by
  simpa [List.get?_eq_getElem?] using modifyIdx_get? l k f j

theorem modifyIdx_congr {α : Type} (l : List α) (k : Nat) (f g : α → α) (a : α)
    (hk : l.get? k = some a) (hfg : f a = g a) : modifyIdx l k f = modifyIdx l k g := by
  induction l generalizing k with
  | nil => simp [modifyIdx]
  | cons x rest ih =>
    cases k with
    | zero =>
      simp only [List.get?_cons_zero, Option.some.injEq] at hk
      subst hk
      simp [modifyIdx, hfg]
    | succ k =>
      simp only [List.get?_cons_succ] at hk
      simp [modifyIdx, ih k hk]

theorem find_idx_spec (p : block → Bool) (l : List block) (h : l.any p = true) :
    ∃ bl, l.get? (find_idx p l) = some bl ∧ p bl = true := by
  induction l with
  | nil => simp at h
  | cons x rest ih =>
    by_cases hx : p x = true
    · exact ⟨x, by simp [find_idx, hx], hx⟩
    · have h2 : rest.any p = true := by
        simp only [List.any_cons, Bool.or_eq_true] at h
        tauto
      obtain ⟨bl, h3, h4⟩ := ih h2
      refine ⟨bl, ?_, h4⟩
      simpa [find_idx, hx] using h3

theorem hit_scan_eq (l : List block) (t : Nat) (c : Int) :
    hit_scan l t c =
      if l.any (pred_hit t) then
        some (modifyIdx l (find_idx (pred_hit t) l) (fun bl => { bl with lri := c }))
      else none := by
  induction l with
  | nil => simp [hit_scan]
  | cons x rest ih =>
    by_cases hx : x.tag = t ∧ x.valid_bit = true
    · have hp : pred_hit t x = true := by simp [pred_hit, hx.1, hx.2]
      simp [hit_scan, hx, List.any_cons, hp, find_idx, modifyIdx]
    · have hp : pred_hit t x = false := by
        simp only [pred_hit, Bool.and_eq_false_iff, decide_eq_false_iff_not]
        by_cases hv : x.valid_bit = true
        · exact Or.inr (fun ht => hx ⟨ht, hv⟩)
        · exact Or.inl (by revert hv; cases x.valid_bit <;> simp)
      rw [hit_scan, if_neg hx, ih]
      cases hr : rest.any (pred_hit t) with
      | false => simp [List.any_cons, hp, hr]
      | true => simp [List.any_cons, hp, hr, find_idx, modifyIdx]

theorem empty_scan_eq (l : List block) (t : Nat) (c : Int) :
    empty_scan l t c =
      if l.any pred_invalid then
        some (modifyIdx l (find_idx pred_invalid l)
          (fun bl => { bl with tag := t, valid_bit := true, lri := c }))
      else none := by
  induction l with
  | nil => simp [empty_scan]
  | cons x rest ih =>
    by_cases hx : x.valid_bit = true
    · have hp : pred_invalid x = false := by simp [pred_invalid, hx]
      rw [empty_scan, if_pos hx, ih]
      cases hr : rest.any pred_invalid with
      | false => simp [List.any_cons, hp, hr]
      | true => simp [List.any_cons, hp, hr, find_idx, modifyIdx]
    · have hv : x.valid_bit = false := by revert hx; cases x.valid_bit <;> simp
      have hp : pred_invalid x = true := by simp [pred_invalid, hv]
      rw [empty_scan, if_neg hx]
      simp [List.any_cons, hp, find_idx, modifyIdx]

theorem lri_min_le (l : List block) (a : Int) : lri_min l a ≤ a := by
  induction l generalizing a with
  | nil => simp [lri_min]
  | cons x rest ih =>
    simp only [lri_min]
    exact le_trans (ih (min a x.lri)) (min_le_left _ _)

theorem lri_min_attained (l : List block) (a : Int) :
    lri_min l a = a ∨ ∃ bl ∈ l, lri_min l a = bl.lri := by
  induction l generalizing a with
  | nil => exact Or.inl rfl
  | cons x rest ih =>
    simp only [lri_min]
    rcases ih (min a x.lri) with h | ⟨bl, hmem, heq⟩
    · rcases le_total a x.lri with hax | hxa
      · exact Or.inl (by rw [h, min_eq_left hax])
      · exact Or.inr ⟨x, List.mem_cons_self _ _, by rw [h, min_eq_right hxa]⟩
    · exact Or.inr ⟨bl, List.mem_cons_of_mem _ hmem, heq⟩

theorem any_pred_lri (bl0 : block) (rest : List block) :
    (bl0 :: rest).any (pred_lri (lri_min rest bl0.lri)) = true := by
  rcases lri_min_attained rest bl0.lri with h | ⟨bl, hmem, heq⟩
  · exact List.any_eq_true.mpr ⟨bl0, List.mem_cons_self _ _, by simp [pred_lri, h]⟩
  · exact List.any_eq_true.mpr ⟨bl, List.mem_cons_of_mem _ hmem, by simp [pred_lri, heq]⟩

theorem min_scan_eq (l : List block) : ∀ (i : Nat) (a : Int) (bi : Nat),
    min_scan l i a bi =
      if lri_min l a < a then i + find_idx (pred_lri (lri_min l a)) l else bi := by
  induction l with
  | nil => intro i a bi; simp [min_scan, lri_min]
  | cons x rest ih =>
    intro i a bi
    simp only [min_scan, lri_min]
    by_cases hx : x.lri < a
    · rw [if_pos hx, min_eq_right (le_of_lt hx), ih]
      have hle := lri_min_le rest x.lri
      by_cases hm : lri_min rest x.lri < x.lri
      · rw [if_pos hm, if_pos (lt_trans hm hx)]
        have hne : pred_lri (lri_min rest x.lri) x = false := by
          simp only [pred_lri, decide_eq_false_iff_not]
          omega
        simp only [find_idx, hne, Bool.false_eq_true, if_false]
        omega
      · have heq : lri_min rest x.lri = x.lri := le_antisymm hle (not_lt.mp hm)
        rw [if_neg hm, if_pos (show lri_min rest x.lri < a by rw [heq]; exact hx)]
        have hp : pred_lri (lri_min rest x.lri) x = true := by simp [pred_lri, heq]
        simp [find_idx, hp]
    · rw [if_neg hx, min_eq_left (not_lt.mp hx), ih]
      by_cases hm : lri_min rest a < a
      · rw [if_pos hm, if_pos hm]
        have hne : pred_lri (lri_min rest a) x = false := by
          simp only [pred_lri, decide_eq_false_iff_not]
          omega
        simp only [find_idx, hne, Bool.false_eq_true, if_false]
        omega
      · rw [if_neg hm, if_neg hm]

theorem evict_idx_eq (bl0 : block) (rest : List block) :
    evict_idx (bl0 :: rest) =
      find_idx (pred_lri (lri_min rest bl0.lri)) (bl0 :: rest) := by
  show min_scan rest 1 bl0.lri 0 = _
  rw [min_scan_eq]
  by_cases hm : lri_min rest bl0.lri < bl0.lri
  · rw [if_pos hm]
    have hne : pred_lri (lri_min rest bl0.lri) bl0 = false := by
      simp only [pred_lri, decide_eq_false_iff_not]
      omega
    simp only [find_idx, hne, Bool.false_eq_true, if_false]
    omega
  · rw [if_neg hm]
    have heq : lri_min rest bl0.lri = bl0.lri :=
      le_antisymm (lri_min_le _ _) (not_lt.mp hm)
    have hp : pred_lri (lri_min rest bl0.lri) bl0 = true := by simp [pred_lri, heq]
    simp [find_idx, hp]

theorem access_set_eq_spec (l : List block) (t : Nat) (c : Int) :
    access_set l t c = access_set_spec l t c := by
  cases hany : l.any (pred_hit t) with
  | true =>
    simp [access_set, access_set_spec, hit_scan_eq, hany]
  | false =>
    cases hinv : l.any pred_invalid with
    | true =>
      simp [access_set, access_set_spec, hit_scan_eq, empty_scan_eq, hany, hinv]
    | false =>
      cases l with
      | nil => simp [access_set, access_set_spec, hit_scan, empty_scan, hany, hinv]
      | cons bl0 rest =>
        simp [access_set, access_set_spec, hit_scan_eq, empty_scan_eq, hany, hinv,
          evict_idx_eq]

theorem access_set_shape (l : List block) (t : Nat) (c : Int) (l2 : List block) (o : Outcome)
    (h : access_set l t c = some (l2, o)) :
    ∃ k old, l.get? k = some old ∧
      l2 = modifyIdx l k (fun _ => (⟨true, t, c⟩ : block)) ∧
      (o = Outcome.Hit → old.valid_bit = true ∧ old.tag = t) ∧
      (o ≠ Outcome.Hit → ∀ bl ∈ l, bl.valid_bit = true → bl.tag ≠ t) := by
  rw [access_set_eq_spec, access_set_spec.eq_def] at h
  cases hany : l.any (pred_hit t) with
  | true =>
    obtain ⟨old, hg, hp⟩ := find_idx_spec _ _ hany
    simp only [pred_hit, Bool.and_eq_true, decide_eq_true_eq] at hp
    simp only [hany, if_true, Option.some.injEq, Prod.mk.injEq] at h
    obtain ⟨hl2, ho⟩ := h
    subst ho
    refine ⟨find_idx (pred_hit t) l, old, hg, ?_, fun _ => ⟨hp.1, hp.2⟩,
      fun hno => absurd rfl hno⟩
    rw [← hl2]
    apply modifyIdx_congr _ _ _ _ _ hg
    cases old with
    | mk v tg r =>
      simp only at hp
      simp [hp.1, hp.2]
  | false =>
    have hnotag : ∀ bl ∈ l, bl.valid_bit = true → bl.tag ≠ t := by
      intro bl hmem hv ht
      have := List.any_eq_false.mp hany bl hmem
      simp [pred_hit, hv, ht] at this
    simp only [hany, Bool.false_eq_true, if_false] at h
    cases hinv : l.any pred_invalid with
    | true =>
      obtain ⟨old, hg, hp⟩ := find_idx_spec _ _ hinv
      simp only [hinv, if_true, Option.some.injEq, Prod.mk.injEq] at h
      obtain ⟨hl2, ho⟩ := h
      subst ho
      refine ⟨find_idx pred_invalid l, old, hg, ?_, fun hH => Outcome.noConfusion hH,
        fun _ => hnotag⟩
      rw [← hl2]
    | false =>
      have hvalid : ∀ bl ∈ l, bl.valid_bit = true := by
        intro bl hmem
        have := List.any_eq_false.mp hinv bl hmem
        simpa [pred_invalid] using this
      simp only [hinv, Bool.false_eq_true, if_false] at h
      cases l with
      | nil => simp at h
      | cons bl0 rest =>
        obtain ⟨old, hg, hp⟩ := find_idx_spec _ _ (any_pred_lri bl0 rest)
        simp only [Option.some.injEq, Prod.mk.injEq] at h
        obtain ⟨hl2, ho⟩ := h
        subst ho
        refine ⟨find_idx (pred_lri (lri_min rest bl0.lri)) (bl0 :: rest), old, hg, ?_,
          fun hH => Outcome.noConfusion hH, fun _ => hnotag⟩
        rw [← hl2]
        apply modifyIdx_congr _ _ _ _ _ hg
        have hov : old.valid_bit = true := hvalid old (List.get?_mem hg)
        cases old with
        | mk v tg r =>
          simp only at hov
          simp [hov]

theorem access_inv (st st2 : SimState) (idx t : Nat) (o : Outcome)
    (h : access st idx t = some (st2, o)) :
    ∃ k old, getBlock st idx k = some old ∧
      st2.lri_count = st.lri_count + 1 ∧
      st2.hit + st2.miss = st.hit + st.miss + 1 ∧
      getBlock st2 idx k = some ⟨true, t, st.lri_count⟩ ∧
      (∀ i j, ¬(i = idx ∧ j = k) → getBlock st2 i j = getBlock st i j) ∧
      (o = Outcome.Hit → old.valid_bit = true ∧ old.tag = t) ∧
      (o ≠ Outcome.Hit →
        ∀ j bl, getBlock st idx j = some bl → bl.valid_bit = true → bl.tag ≠ t) := by
  unfold access at h
  cases hset : st.cache.get? idx with
  | none => rw [hset] at h; dsimp only at h; cases h
  | some l =>
    rw [hset] at h
    dsimp only at h
    cases hacc : access_set l t st.lri_count with
    | none => rw [hacc] at h; dsimp only at h; cases h
    | some p =>
      obtain ⟨l2, o2⟩ := p
      rw [hacc] at h
      dsimp only at h
      simp only [Option.some.injEq, Prod.mk.injEq] at h
      obtain ⟨hst2, ho⟩ := h
      subst ho
      subst hst2
      obtain ⟨k, old, hg, hl2, hHit, hMiss⟩ := access_set_shape l t st.lri_count l2 o2 hacc
      have hgB : getBlock st idx k = some old := by
        unfold getBlock
        rw [hset]
        exact hg
      refine ⟨k, old, hgB, rfl, ?_, ?_, ?_, hHit, ?_⟩
      · dsimp only
        by_cases hOo : o2 = Outcome.Hit
        · rw [if_pos hOo, if_pos hOo]
          omega
        · rw [if_neg hOo, if_neg hOo]
          omega
      · have hsetE : st.cache[idx]? = some l := by
          simpa [List.get?_eq_getElem?] using hset
        have hgE : l[k]? = some old := by
          simpa [List.get?_eq_getElem?] using hg
        simp [getBlock, modifyIdx_getElem?, hsetE, hl2, hgE]
      · intro i j hij
        by_cases hi : i = idx
        · subst hi
          have hsetE : st.cache[i]? = some l := by
            simpa [List.get?_eq_getElem?] using hset
          have hj : j ≠ k := fun hj => hij ⟨rfl, hj⟩
          simp [getBlock, modifyIdx_getElem?, hsetE, hl2, hj]
        · simp [getBlock, modifyIdx_getElem?, hi]
      · intro hno j bl hgj hv
        unfold getBlock at hgj
        rw [hset] at hgj
        exact hMiss hno bl (List.get?_mem hgj) hv

theorem get?_replicate {α : Type} (n i : Nat) (a x : α)
    (h : (List.replicate n a).get? i = some x) : x = a := by
  induction n generalizing i with
  | zero => simp [List.replicate] at h
  | succ n ih =>
    cases i with
    | zero =>
      rw [List.replicate, List.get?_cons_zero] at h
      exact (Option.some.inj h).symm
    | succ i =>
      rw [List.replicate, List.get?_cons_succ] at h
      exact ih i h

theorem init_getBlock (s E i j : Nat) (bl : block)
    (h : getBlock (init_state s E) i j = some bl) : bl = init_block := by
  unfold getBlock init_state at h
  dsimp only at h
  cases hx : (List.replicate (2 ^ s) (List.replicate E init_block)).get? i with
  | none => rw [hx] at h; cases h
  | some l =>
    rw [hx] at h
    dsimp only [Option.bind] at h
    have hl : l = List.replicate E init_block := get?_replicate _ _ _ _ hx
    subst hl
    exact get?_replicate _ _ _ _ h

theorem init_siminv (s E : Nat) : SimInv (init_state s E) := by
  refine ⟨?_, ?_, ?_⟩
  · intro i j bl h
    rw [init_getBlock s E i j bl h]
    show (-1 : Int) < (0 : Int)
    decide
  · intro i1 j1 i2 j2 b1 b2 h1 h2 hv1 hv2 hne
    rw [init_getBlock s E i1 j1 b1 h1] at hv1
    exact absurd hv1 (by decide)
  · intro i j1 j2 b1 b2 h1 h2 hv1 hv2 hne
    rw [init_getBlock s E i j1 b1 h1] at hv1
    exact absurd hv1 (by decide)

theorem access_siminv (st st2 : SimState) (idx t : Nat) (o : Outcome)
    (hinv : SimInv st) (h : access st idx t = some (st2, o)) : SimInv st2 := by
  obtain ⟨hB, hR, hT⟩ := hinv
  obtain ⟨k, old, hgB, hcnt, hsum, hgNew, hFrame, hHit, hMiss⟩ := access_inv st st2 idx t o h
  refine ⟨?_, ?_, ?_⟩
  · intro i j bl hbl
    rw [hcnt]
    by_cases hij : i = idx ∧ j = k
    · rw [hij.1, hij.2, hgNew] at hbl
      have hb : bl = ⟨true, t, st.lri_count⟩ := (Option.some.inj hbl).symm
      have hbe : bl.lri = st.lri_count := by rw [hb]
      omega
    · rw [hFrame i j hij] at hbl
      have := hB i j bl hbl
      omega
  · intro i1 j1 i2 j2 b1 b2 h1 h2 hv1 hv2 hne
    by_cases hc1 : i1 = idx ∧ j1 = k
    · rw [hc1.1, hc1.2, hgNew] at h1
      have hb1 : b1.lri = st.lri_count := by
        rw [(Option.some.inj h1).symm]
      by_cases hc2 : i2 = idx ∧ j2 = k
      · rcases hne with hne | hne
        · exact absurd (hc1.1.trans hc2.1.symm) hne
        · exact absurd (hc1.2.trans hc2.2.symm) hne
      · rw [hFrame i2 j2 hc2] at h2
        have hlt := hB i2 j2 b2 h2
        omega
    · by_cases hc2 : i2 = idx ∧ j2 = k
      · rw [hc2.1, hc2.2, hgNew] at h2
        have hb2 : b2.lri = st.lri_count := by
          rw [(Option.some.inj h2).symm]
        rw [hFrame i1 j1 hc1] at h1
        have hlt := hB i1 j1 b1 h1
        omega
      · rw [hFrame i1 j1 hc1] at h1
        rw [hFrame i2 j2 hc2] at h2
        exact hR i1 j1 i2 j2 b1 b2 h1 h2 hv1 hv2 hne
  · intro i j1 j2 b1 b2 h1 h2 hv1 hv2 hjne
    by_cases hi : i = idx
    · by_cases hc1 : j1 = k
      · rw [hi, hc1, hgNew] at h1
        have hb1t : b1.tag = t := by
          rw [(Option.some.inj h1).symm]
        rw [hFrame i j2 (fun hc => hjne (hc1.trans hc.2.symm))] at h2
        rw [hi] at h2
        by_cases hOo : o = Outcome.Hit
        · obtain ⟨hov, hot⟩ := hHit hOo
          have hne2 := hT idx k j2 old b2 hgB h2 hov hv2 (hc1 ▸ hjne)
          rw [hb1t]
          exact hot ▸ hne2
        · have hnt := hMiss hOo j2 b2 h2 hv2
          rw [hb1t]
          exact fun hEq => hnt hEq.symm
      · by_cases hc2 : j2 = k
        · rw [hi, hc2, hgNew] at h2
          have hb2t : b2.tag = t := by
            rw [(Option.some.inj h2).symm]
          rw [hFrame i j1 (fun hc => hc1 hc.2)] at h1
          rw [hi] at h1
          by_cases hOo : o = Outcome.Hit
          · obtain ⟨hov, hot⟩ := hHit hOo
            have hne2 := hT idx j1 k b1 old h1 hgB hv1 hov hc1
            rw [hb2t]
            exact hot ▸ hne2
          · have hnt := hMiss hOo j1 b1 h1 hv1
            rw [hb2t]
            exact hnt
        · rw [hFrame i j1 (fun hc => hc1 hc.2)] at h1
          rw [hFrame i j2 (fun hc => hc2 hc.2)] at h2
          rw [hi] at h1 h2
          exact hT idx j1 j2 b1 b2 h1 h2 hv1 hv2 hjne
    · rw [hFrame i j1 (fun hc => hi hc.1)] at h1
      rw [hFrame i j2 (fun hc => hi hc.1)] at h2
      exact hT i j1 j2 b1 b2 h1 h2 hv1 hv2 hjne

theorem access_mono (st st2 : SimState) (idx t : Nat) (o : Outcome)
    (hB : LriBound st) (h : access st idx t = some (st2, o)) :
    ∀ i j b1 b2, getBlock st i j = some b1 → getBlock st2 i j = some b2 →
      b2 = b1 ∨ b1.lri < b2.lri := by
  obtain ⟨k, old, hgB, hcnt, hsum, hgNew, hFrame, hHit, hMiss⟩ := access_inv st st2 idx t o h
  intro i j b1 b2 h1 h2
  by_cases hij : i = idx ∧ j = k
  · right
    rw [hij.1, hij.2, hgNew] at h2
    have hb2 : b2.lri = st.lri_count := by
      rw [(Option.some.inj h2).symm]
    have hlt := hB i j b1 h1
    omega
  · left
    rw [hFrame i j hij, h1] at h2
    exact (Option.some.inj h2).symm

theorem hit_scan_isSome (l : List block) (t : Nat) (c : Int)
    (h : ∃ bl ∈ l, bl.valid_bit = true ∧ bl.tag = t) :
    ∃ l2, hit_scan l t c = some l2 := by
  obtain ⟨bl, hm, hv, ht⟩ := h
  have hany : l.any (pred_hit t) = true :=
    List.any_eq_true.mpr ⟨bl, hm, by simp [pred_hit, hv, ht]⟩
  rw [hit_scan_eq]
  simp only [hany, if_true]
  exact ⟨_, rfl⟩

theorem access_hit (st : SimState) (idx t k : Nat) (bl : block)
    (hg : getBlock st idx k = some bl) (hv : bl.valid_bit = true) (ht : bl.tag = t) :
    ∃ st2, access st idx t = some (st2, Outcome.Hit) ∧
      st2.hit = st.hit + 1 ∧ st2.miss = st.miss ∧ st2.evictions = st.evictions := by
  unfold getBlock at hg
  cases hset : st.cache.get? idx with
  | none => rw [hset] at hg; cases hg
  | some l =>
    rw [hset] at hg
    dsimp only [Option.bind] at hg
    obtain ⟨l2, hl2⟩ := hit_scan_isSome l t st.lri_count ⟨bl, List.get?_mem hg, hv, ht⟩
    refine ⟨SimState.mk (modifyIdx st.cache idx (fun _ => l2)) (st.lri_count + 1)
      (st.hit + 1) st.miss st.evictions, ?_, rfl, rfl, rfl⟩
    unfold access access_set
    rw [hset]
    dsimp only
    rw [hl2]
    dsimp only
    rfl

theorem access_addr_inv (s b : Nat) (st st2 : SimState) (a : Nat) (o : Outcome)
    (h : access_addr s b st a = some (st2, o)) :
    ∃ t idx, parse_address a s b = some (t, idx) ∧ access st idx t = some (st2, o) := by
  unfold access_addr at h
  cases hpa : parse_address a s b with
  | none => rw [hpa] at h; dsimp only at h; cases h
  | some p =>
    obtain ⟨t, idx⟩ := p
    rw [hpa] at h
    dsimp only at h
    exact ⟨t, idx, rfl, h⟩

theorem access_addr_then_hit (s b : Nat) (st st1 : SimState) (a : Nat) (o1 : Outcome)
    (h : access_addr s b st a = some (st1, o1)) :
    ∃ st2, access_addr s b st1 a = some (st2, Outcome.Hit) ∧
      st2.hit = st1.hit + 1 ∧ st2.miss = st1.miss ∧ st2.evictions = st1.evictions := by
  obtain ⟨t, idx, hpa, hacc⟩ := access_addr_inv s b st st1 a o1 h
  obtain ⟨k, old, hgB, hcnt, hsum, hgNew, hFrame, hHit, hMiss⟩ :=
    access_inv st st1 idx t o1 hacc
  obtain ⟨st2, hacc2, hh, hm, he⟩ :=
    access_hit st1 idx t k ⟨true, t, st.lri_count⟩ hgNew rfl rfl
  refine ⟨st2, ?_, hh, hm, he⟩
  unfold access_addr
  rw [hpa]
  exact hacc2

theorem access_addr_siminv (s b : Nat) (st st2 : SimState) (a : Nat) (o : Outcome)
    (hinv : SimInv st) (h : access_addr s b st a = some (st2, o)) : SimInv st2 := by
  obtain ⟨t, idx, hpa, hacc⟩ := access_addr_inv s b st st2 a o h
  exact access_siminv st st2 idx t o hinv hacc

theorem process_line_siminv (s b : Nat) (st st2 : SimState) (tl : trace_line)
    (hinv : SimInv st) (h : process_line s b st tl = some st2) : SimInv st2 := by
  unfold process_line at h
  cases hty : tl.type with
  | MODIFY =>
    rw [hty] at h
    dsimp only at h
    cases ha1 : access_addr s b st tl.address with
    | none => rw [ha1] at h; dsimp only at h; cases h
    | some p1 =>
      obtain ⟨st1, o1⟩ := p1
      rw [ha1] at h
      dsimp only at h
      cases ha2 : access_addr s b st1 tl.address with
      | none => rw [ha2] at h; cases h
      | some p2 =>
        obtain ⟨stf, o2⟩ := p2
        rw [ha2] at h
        have hst : stf = st2 := Option.some.inj h
        subst hst
        exact access_addr_siminv s b st1 stf tl.address o2
          (access_addr_siminv s b st st1 tl.address o1 hinv ha1) ha2
  | LOAD =>
    rw [hty] at h
    dsimp only at h
    cases ha1 : access_addr s b st tl.address with
    | none => rw [ha1] at h; cases h
    | some p1 =>
      obtain ⟨st1, o1⟩ := p1
      rw [ha1] at h
      have hst : st1 = st2 := Option.some.inj h
      subst hst
      exact access_addr_siminv s b st st1 tl.address o1 hinv ha1
  | STORE =>
    rw [hty] at h
    dsimp only at h
    cases ha1 : access_addr s b st tl.address with
    | none => rw [ha1] at h; cases h
    | some p1 =>
      obtain ⟨st1, o1⟩ := p1
      rw [ha1] at h
      have hst : st1 = st2 := Option.some.inj h
      subst hst
      exact access_addr_siminv s b st st1 tl.address o1 hinv ha1

theorem parse_trace_siminv (s b : Nat) (tr : List trace_line) :
    ∀ st st2, SimInv st → parse_trace s b st tr = some st2 → SimInv st2 := by
  induction tr with
  | nil =>
    intro st st2 hinv h
    have : st = st2 := Option.some.inj h
    subst this
    exact hinv
  | cons tl rest ih =>
    intro st st2 hinv h
    unfold parse_trace at h
    cases hp : process_line s b st tl with
    | none => rw [hp] at h; dsimp only at h; cases h
    | some stm =>
      rw [hp] at h
      dsimp only at h
      exact ih stm st2 (process_line_siminv s b st stm tl hinv hp) h

theorem access_addr_sum (s b : Nat) (st st2 : SimState) (a : Nat) (o : Outcome)
    (h : access_addr s b st a = some (st2, o)) :
    st2.hit + st2.miss = st.hit + st.miss + 1 := by
  obtain ⟨t, idx, hpa, hacc⟩ := access_addr_inv s b st st2 a o h
  obtain ⟨k, old, hgB, hcnt, hsum, hrest⟩ := access_inv st st2 idx t o hacc
  exact hsum

theorem process_line_sum (s b : Nat) (st st2 : SimState) (tl : trace_line)
    (h : process_line s b st tl = some st2) :
    st2.hit + st2.miss =
      st.hit + st.miss + (if tl.type = AccessType.MODIFY then 2 else 1) := by
  unfold process_line at h
  cases hty : tl.type with
  | MODIFY =>
    rw [hty] at h
    dsimp only at h
    cases ha1 : access_addr s b st tl.address with
    | none => rw [ha1] at h; dsimp only at h; cases h
    | some p1 =>
      obtain ⟨st1, o1⟩ := p1
      rw [ha1] at h
      dsimp only at h
      cases ha2 : access_addr s b st1 tl.address with
      | none => rw [ha2] at h; cases h
      | some p2 =>
        obtain ⟨stf, o2⟩ := p2
        rw [ha2] at h
        have hst : stf = st2 := Option.some.inj h
        subst hst
        have hs1 := access_addr_sum s b st st1 tl.address o1 ha1
        have hs2 := access_addr_sum s b st1 stf tl.address o2 ha2
        show stf.hit + stf.miss = st.hit + st.miss + 2
        omega
  | LOAD =>
    rw [hty] at h
    dsimp only at h
    cases ha1 : access_addr s b st tl.address with
    | none => rw [ha1] at h; cases h
    | some p1 =>
      obtain ⟨st1, o1⟩ := p1
      rw [ha1] at h
      have hst : st1 = st2 := Option.some.inj h
      subst hst
      have hs1 := access_addr_sum s b st st1 tl.address o1 ha1
      show st1.hit + st1.miss = st.hit + st.miss + 1
      omega
  | STORE =>
    rw [hty] at h
    dsimp only at h
    cases ha1 : access_addr s b st tl.address with
    | none => rw [ha1] at h; cases h
    | some p1 =>
      obtain ⟨st1, o1⟩ := p1
      rw [ha1] at h
      have hst : st1 = st2 := Option.some.inj h
      subst hst
      have hs1 := access_addr_sum s b st st1 tl.address o1 ha1
      show st1.hit + st1.miss = st.hit + st.miss + 1
      omega

theorem parse_trace_sum (s b : Nat) (tr : List trace_line) :
    ∀ st st2, parse_trace s b st tr = some st2 →
      st2.hit + st2.miss = st.hit + st.miss + num_loadstore tr + 2 * num_modify tr := by
  induction tr with
  | nil =>
    intro st st2 h
    have hst : st = st2 := Option.some.inj h
    subst hst
    simp [num_loadstore, num_modify]
  | cons tl rest ih =>
    intro st st2 h
    unfold parse_trace at h
    cases hp : process_line s b st tl with
    | none => rw [hp] at h; dsimp only at h; cases h
    | some stm =>
      rw [hp] at h
      dsimp only at h
      have h1 := process_line_sum s b st stm tl hp
      have h2 := ih stm st2 h
      unfold num_loadstore num_modify
      by_cases hm : tl.type = AccessType.MODIFY
      · rw [if_pos hm] at h1
        rw [if_pos hm, if_pos hm]
        omega
      · rw [if_neg hm] at h1
        rw [if_neg hm, if_neg hm]
        omega

/-- Claim C1: every `access(cache, setIndex, tag)` follows the spec's
three-step algorithm in order — scan the target set in declaration order
for a line with `valid == true && tag == requestedTag`, on a hit increment
`hits` and restamp that line's recency from the global counter; otherwise
increment `misses` and install into the first line with `valid == false`;
otherwise increment `evictions` and overwrite the line with the strictly
minimum recency (`<`, not `<=`), with `valid` staying true.  Stated as a
refinement: the code-level probe `access` coincides with `access_spec`,
the probe written from the spec's own three steps. -/
theorem c1_access_refines_spec (st : SimState) (idx t : Nat) :
    access st idx t = access_spec st idx t := by
  unfold access access_spec
  cases hset : st.cache.get? idx with
  | none => rfl
  | some l =>
    dsimp only
    rw [access_set_eq_spec]

/-- Claim C2 counterexample: the claim fails at address `a = 2^32`,
`s = b = 0`.  The claimed tag is `a >> (s+b) = 2^32`, but `parse_address`
stores the tag into an `unsigned int`, so it returns tag `0` and the
address is not recovered. -/
theorem c2_counterexample :
    parse_address (2 ^ 32) 0 0 ≠ some (2 ^ 32 / 2 ^ (0 + 0), (2 ^ 32 / 2 ^ 0) % 2 ^ 0) := by
  decide

/-- Claim C2 (amended): for `s + b < 64` and addresses whose tag
`a >> (s+b)` and set index `(a >> b) mod 2^s` both fit in 32 bits (the
code stores both in `unsigned int` variables), `parse_address` returns
exactly `tag = a >> (s+b)` and `setIndex = (a >> b) & ((1 << s) - 1)`,
and `a` is recovered bit-for-bit as
`(tag << (s+b)) | (setIndex << b) | (low b bits of a)` — the shifted
fields occupy disjoint bit ranges, so `|` is `+`; in particular `s = 0`
yields `setIndex = 0`. -/
theorem c2_decompose_correct (a s b : Nat) (h64 : s + b < 64)
    (htag : a / 2 ^ (s + b) < 2 ^ 32) (hidx : (a / 2 ^ b) % 2 ^ s < 2 ^ 32) :
    parse_address a s b = some (a / 2 ^ (s + b), (a / 2 ^ b) % 2 ^ s) ∧
    (a / 2 ^ (s + b)) * 2 ^ (s + b) + ((a / 2 ^ b) % 2 ^ s) * 2 ^ b + a % 2 ^ b = a ∧
    (s = 0 → (a / 2 ^ b) % 2 ^ s = 0) := by
  refine ⟨?_, ?_, ?_⟩
  · unfold parse_address
    rw [if_pos h64, Nat.mod_eq_of_lt htag, Nat.mod_eq_of_lt hidx]
  · have e1 : a / 2 ^ b * 2 ^ b + a % 2 ^ b = a := Nat.div_add_mod' a (2 ^ b)
    have e2 : a / 2 ^ b / 2 ^ s * 2 ^ s + a / 2 ^ b % 2 ^ s = a / 2 ^ b :=
      Nat.div_add_mod' (a / 2 ^ b) (2 ^ s)
    have e3 : a / 2 ^ b / 2 ^ s = a / 2 ^ (s + b) := by
      rw [Nat.div_div_eq_div_mul, ← pow_add, Nat.add_comm b s]
    calc (a / 2 ^ (s + b)) * 2 ^ (s + b) + ((a / 2 ^ b) % 2 ^ s) * 2 ^ b + a % 2 ^ b
        = (a / 2 ^ b / 2 ^ s * 2 ^ s + a / 2 ^ b % 2 ^ s) * 2 ^ b + a % 2 ^ b := by
          rw [← e3, pow_add]
          ring
      _ = a / 2 ^ b * 2 ^ b + a % 2 ^ b := by rw [e2]
      _ = a := e1
  · intro hs
    subst hs
    exact Nat.mod_one _

/-- Claim C2 witness: `a = 5`, `s = b = 1` — tag 1, set index 0, and the
recovery `1 * 4 + 0 * 2 + 1 = 5`. -/
theorem c2_witness :
    parse_address 5 1 1 = some (1, 0) ∧
    (1 : Nat) * 2 ^ (1 + 1) + 0 * 2 ^ 1 + 5 % 2 ^ 1 = 5 :=
  ⟨(c2_decompose_correct 5 1 1 (by decide) (by decide) (by decide)).1.trans (by decide),
    by decide⟩

/-- Claim C3: a `Modify` record is processed as exactly two sequential
probes of the identical address, each contributing independently to the
counters, and the second probe always hits the line the first one touched
or installed — the two probes never both miss. -/
theorem c3_modify_two_accesses (s b : Nat) (st st1 : SimState) (a : Nat) (o1 : Outcome)
    (h : access_addr s b st a = some (st1, o1)) :
    process_line s b st ⟨AccessType.MODIFY, a⟩ = (access_addr s b st1 a).map Prod.fst ∧
    ∃ st2, access_addr s b st1 a = some (st2, Outcome.Hit) ∧
      st2.hit = st1.hit + 1 ∧ st2.miss = st1.miss ∧ st2.evictions = st1.evictions := by
  constructor
  · unfold process_line
    dsimp only
    rw [h]
  · exact access_addr_then_hit s b st st1 a o1 h

/-- Claim C3 witness: one `Modify` of a fresh address in an empty
one-line cache — the first probe misses and installs, the second hits,
final counters `hits = 1`, `misses = 1`, `evictions = 0`. -/
theorem c3_witness :
    (access_addr 0 0 (SimState.mk [[block.mk true 0 0]] 1 0 1 0) 0).map Prod.snd =
      some Outcome.Hit ∧
    (process_line 0 0 (init_state 0 1) ⟨AccessType.MODIFY, 0⟩).map
      (fun st => (st.hit, st.miss, st.evictions)) = some (1, 1, 0) := by
  obtain ⟨h1, st2, h2, h3, h4, h5⟩ :=
    c3_modify_two_accesses 0 0 (init_state 0 1)
      (SimState.mk [[block.mk true 0 0]] 1 0 1 0) 0 Outcome.MissFilled rfl
  refine ⟨by rw [h2]; rfl, ?_⟩
  rw [h1, h2]
  show some (st2.hit, st2.miss, st2.evictions) = some (1, 1, 0)
  rw [h3, h4, h5]

/-- Claim C4: conservation law — after processing a whole trace with `N`
Load/Store records and `M` Modify records from the freshly initialised
cache, the final counters satisfy `hits + misses = N + 2 * M`. -/
theorem c4_conservation (s E b : Nat) (tr : List trace_line) (st2 : SimState)
    (h : parse_trace s b (init_state s E) tr = some st2) :
    st2.hit + st2.miss = num_loadstore tr + 2 * num_modify tr := by
  have hsum := parse_trace_sum s b tr (init_state s E) st2 h
  simpa [init_state] using hsum

/-- Claim C4 witness: one Load and one Modify give
`hits + misses = 3 = 1 + 2 * 1`. -/
theorem c4_witness :
    (SimState.mk [[block.mk true 1 2], [init_block]] 3 1 2 1).hit +
      (SimState.mk [[block.mk true 1 2], [init_block]] 3 1 2 1).miss =
    num_loadstore [⟨AccessType.LOAD, 0⟩, ⟨AccessType.MODIFY, 2⟩] +
      2 * num_modify [⟨AccessType.LOAD, 0⟩, ⟨AccessType.MODIFY, 2⟩] :=
  c4_conservation 1 1 0 [⟨AccessType.LOAD, 0⟩, ⟨AccessType.MODIFY, 2⟩]
    (SimState.mk [[block.mk true 1 2], [init_block]] 3 1 2 1) rfl

/-- Claim C5: at every point of processing (after any trace from the
initial cache) no two valid lines of the whole cache hold equal recency
stamps; and every probe (hit, install or eviction overwrite) touches
exactly one line, whose recency strictly increases relative to that
line's own previous value, while every other line of the cache is left
unchanged. -/
theorem c5_recency_unique_and_monotone :
    (∀ s b sE E tr st2,
      parse_trace s b (init_state sE E) tr = some st2 → RecUnique st2) ∧
    (∀ st idx t st2 o, SimInv st → access st idx t = some (st2, o) →
      ∃ k old nw, getBlock st idx k = some old ∧ getBlock st2 idx k = some nw ∧
        old.lri < nw.lri ∧
        (∀ i j, ¬(i = idx ∧ j = k) → getBlock st2 i j = getBlock st i j)) := by
  constructor
  · intro s b sE E tr st2 h
    exact (parse_trace_siminv s b tr (init_state sE E) st2 (init_siminv sE E) h).2.1
  · intro st idx t st2 o hinv h
    obtain ⟨k, old, hgB, hcnt, hsum, hgNew, hFrame, hHit, hMiss⟩ :=
      access_inv st st2 idx t o h
    exact ⟨k, old, ⟨true, t, st.lri_count⟩, hgB, hgNew, hinv.1 idx k old hgB, hFrame⟩

/-- Claim C5 witness: after one Load on the empty one-line cache the
stamps are unique, and the line the probe installed into has its recency
strictly increased from the initial `-1` to `0`. -/
theorem c5_witness :
    RecUnique (SimState.mk [[block.mk true 0 0]] 1 0 1 0) ∧
    init_block.lri < (block.mk true 0 0).lri := by
  constructor
  · exact c5_recency_unique_and_monotone.1 0 0 0 1 [⟨AccessType.LOAD, 0⟩]
      (SimState.mk [[block.mk true 0 0]] 1 0 1 0) rfl
  · obtain ⟨k, old, nw, hg1, hg2, hlt, hFrame⟩ :=
      c5_recency_unique_and_monotone.2 (init_state 0 1) 0 0
        (SimState.mk [[block.mk true 0 0]] 1 0 1 0) Outcome.MissFilled
        (init_siminv 0 1) rfl
    cases k with
    | zero =>
      have ho : init_block = old := Option.some.inj hg1
      have hn : block.mk true 0 0 = nw := Option.some.inj hg2
      rw [← ho, ← hn] at hlt
      exact hlt
    | succ k2 => exact Option.noConfusion hg1

/-- Claim C6: at every point of processing (after any trace from the
initial all-invalid cache) no two valid lines within the same set hold
the same tag. -/
theorem c6_tag_unique (s b sE E : Nat) (tr : List trace_line) (st2 : SimState)
    (h : parse_trace s b (init_state sE E) tr = some st2) : TagUnique st2 :=
  (parse_trace_siminv s b tr (init_state sE E) st2 (init_siminv sE E) h).2.2

/-- Claim C6 witness: tag uniqueness after a concrete two-Load trace on a
two-line set. -/
theorem c6_witness :
    TagUnique (SimState.mk [[block.mk true 0 0, block.mk true 1 1]] 2 0 2 0) :=
  c6_tag_unique 0 0 0 2 [⟨AccessType.LOAD, 0⟩, ⟨AccessType.LOAD, 1⟩]
    (SimState.mk [[block.mk true 0 0, block.mk true 1 1]] 2 0 2 0) rfl

/-- Claim C7: the claim says the shift for `s + b ≥ 64` is guarded and
yields tag 0; the code computes `address >> (s + b)` unguarded, which is
undefined behaviour in C for a shift count of 64 or more (on x86-64 the
count is taken mod 64, giving `tag = address`, not 0).  The model
evaluates the code at the failing input `a = 1`, `s = b = 32` to the
undefined result, not to `some (0, _)`. -/
theorem c7_shift_unguarded : parse_address 1 32 32 = none := rfl

/-- Claim C8: the claim says configurations with `E < 1` (or negative
`s`, `b`) are rejected before any cache is allocated; the code never
validates them — `main` checks only `argc == 1` and calls `cache_init`
unconditionally.  At `s = 1`, `E = 0`, `b = 0` the cache (2 sets of 0
lines) is allocated and the simulation then runs into the out-of-bounds
eviction read instead of failing fast. -/
theorem c8_no_config_validation :
    cache_init 1 0 0 = some (init_state 1 0) ∧
    parse_trace 1 0 (init_state 1 0) [⟨AccessType.LOAD, 0⟩] = none :=
  ⟨rfl, rfl⟩

/-- Claim C9 counterexample: with `s = 1`, `E = 1`, `b = 0` and Loads at
`[0, 2, 0]`, the third access misses on a full set and evicts again, so
the final counters are `(hits, misses, evictions) = (0, 3, 2)`, not the
claimed `(0, 3, 1)`. -/
theorem c9_counterexample :
    (parse_trace 1 0 (init_state 1 1)
        [⟨AccessType.LOAD, 0⟩, ⟨AccessType.LOAD, 2⟩, ⟨AccessType.LOAD, 0⟩]).map
      (fun st => (st.hit, st.miss, st.evictions)) ≠ some (0, 3, 1) := by
  decide

/-- Claim C9 (amended): with `s = 1`, `E = 1`, `b = 0` and the three
Loads at `[0, 2, 0]` on a fresh cache the final counters are `hits = 0`,
`misses = 3`, `evictions = 2` (both the second and the third access evict
the single line of set 0). -/
theorem c9_scenario :
    (parse_trace 1 0 (init_state 1 1)
        [⟨AccessType.LOAD, 0⟩, ⟨AccessType.LOAD, 2⟩, ⟨AccessType.LOAD, 0⟩]).map
      (fun st => (st.hit, st.miss, st.evictions)) = some (0, 3, 2) := rfl

/-- Claim C10: the stored and compared tag is only the low 32 bits of
`address >> (s+b)`.  Two different addresses agreeing on the set-index
bits and on the tag modulo `2^32` decompose identically, every probe
treats them identically, and an access to the second address hits the
line touched or installed by an access to the first. -/
theorem c10_tag_truncation (s b a1 a2 : Nat) (h64 : s + b < 64) (hne : a1 ≠ a2)
    (hidx : (a1 / 2 ^ b) % 2 ^ s = (a2 / 2 ^ b) % 2 ^ s)
    (htag : (a1 / 2 ^ (s + b)) % 2 ^ 32 = (a2 / 2 ^ (s + b)) % 2 ^ 32) :
    parse_address a1 s b = parse_address a2 s b ∧
    (∀ st, access_addr s b st a1 = access_addr s b st a2) ∧
    (∀ st st1 o1, access_addr s b st a1 = some (st1, o1) →
      (access_addr s b st1 a2).map Prod.snd = some Outcome.Hit) := by
  have hpa : parse_address a1 s b = parse_address a2 s b := by
    unfold parse_address
    rw [if_pos h64, if_pos h64, htag, hidx]
  refine ⟨hpa, ?_, ?_⟩
  · intro st
    unfold access_addr
    rw [hpa]
  · intro st st1 o1 h
    have h2 : access_addr s b st1 a2 = access_addr s b st1 a1 := by
      unfold access_addr
      rw [hpa]
    rw [h2]
    obtain ⟨st2, hacc, hrest⟩ := access_addr_then_hit s b st st1 a1 o1 h
    rw [hacc]
    rfl

/-- Claim C10 witness: addresses `0` and `2^32` with `s = b = 0` — the
tags agree modulo `2^32`, both decompose identically, and a probe of
`2^32` hits the line installed by a probe of `0`. -/
theorem c10_witness :
    parse_address 0 0 0 = parse_address (2 ^ 32) 0 0 ∧
    access_addr 0 0 (init_state 0 1) 0 = access_addr 0 0 (init_state 0 1) (2 ^ 32) ∧
    (access_addr 0 0 (SimState.mk [[block.mk true 0 0]] 1 0 1 0) (2 ^ 32)).map Prod.snd =
      some Outcome.Hit := by
  obtain ⟨h1, h2, h3⟩ :=
    c10_tag_truncation 0 0 0 (2 ^ 32) (by decide) (by decide) (by decide) (by decide)
  exact ⟨h1, h2 (init_state 0 1),
    h3 (init_state 0 1) (SimState.mk [[block.mk true 0 0]] 1 0 1 0) Outcome.MissFilled rfl⟩

end Csim
